import Mathlib

/-!
Verification development for the significance filter and genotype caller of the
`scatter` repository.  The repository's headers (`src/util/is_significant.hpp`,
`src/variant_calling.hpp`) declare the components; their bodies are not part of
the available sources, so every operation below is modelled from the
natural-language specification, as a shallow embedding over exact rational
(and, for the log-factorial engine, real) arithmetic.
-/

namespace Scatter


/-- Modelled from the spec: a `Genotype` is one of the unordered nucleotide pairs
over A,C,G,T or the sentinel "no confident call" (`NO_GENOTYPE`, encoded in the
source as a maximal `uint8_t`).  Following the spec's design note, the sentinel
is modelled as an explicit absent value: `none` plays the role of `NO_GENOTYPE`,
and `some (a, b)` the genotype with alleles `a` and `b`. -/
abbrev Genotype := Option (Fin 4 × Fin 4)

/-- Modelled from the spec: a base-count array is a fixed 4-element sequence of
non-negative integer counts, one slot per nucleotide (A, C, G, T).  The total
coverage is the sum of the four counts. -/
def coverage (bc : Fin 4 → ℕ) : ℕ := ∑ i, bc i

/-- Modelled from the spec: the dominant base of a base-count array is the base
with the highest count (ties resolved towards the earlier nucleotide). -/
def dominant (bc : Fin 4 → ℕ) : Fin 4 :=
  if bc 1 ≤ bc 0 ∧ bc 2 ≤ bc 0 ∧ bc 3 ≤ bc 0 then 0
  else if bc 2 ≤ bc 1 ∧ bc 3 ≤ bc 1 then 1
  else if bc 3 ≤ bc 2 then 2
  else 3

/-- Modelled from the spec: the total count of reads on the three non-dominant
bases ("minor-allele count"), the candidate sequencing errors. -/
def minorCount (bc : Fin 4 → ℕ) : ℕ := coverage bc - bc (dominant bc)

/-- Modelled from the spec: `likely_homozygous` (declared in
`src/variant_calling.hpp`, body not in the sources).  Identifies the dominant
base and declares the locus homozygous for it when the observed non-dominant
read total lies within one standard deviation of its expected value under a
binomial noise model at error rate `theta` over the total coverage
(expectation `coverage * theta`, variance `coverage * theta * (1 - theta)`).
The within-one-standard-deviation test `|k - c*θ| ≤ sqrt (c*θ*(1-θ))` is
expressed by the equivalent squared comparison so that the definition is
decidable over `ℚ`.  Zero coverage is never homozygous-confident and returns
`NO_GENOTYPE` (`none`) before any degenerate computation. -/
def likely_homozygous (bc : Fin 4 → ℕ) (theta : ℚ) : Genotype :=
  if coverage bc = 0 then none
  else if ((minorCount bc : ℚ) - coverage bc * theta) ^ 2
      ≤ coverage bc * theta * (1 - theta) then
    some (dominant bc, dominant bc)
  else none

/-- Binomial coefficient computed through factorials; agrees with `Nat.choose`
but evaluates in linear time in the kernel, which keeps concrete significance
computations feasible. -/
def fchoose (n k : ℕ) : ℕ :=
  if k ≤ n then n.factorial / (k.factorial * (n - k).factorial) else 0

/-- Modelled from the spec: probability mass of observing exactly `k` error
reads among `n` reads when each read is erroneous independently with
probability `theta` (binomial probability mass, evaluated exactly over `ℚ`). -/
def binomPMF (n k : ℕ) (theta : ℚ) : ℚ :=
  fchoose n k * theta ^ k * (1 - theta) ^ (n - k)

/-- Modelled from the spec: the exact tail probability, under the null
hypothesis that all deviation is sequencing error at rate `theta`, of
observing a minor-allele count at least as extreme as `k` out of `n` reads. -/
def binomTail (n k : ℕ) (theta : ℚ) : ℚ :=
  ∑ i in Finset.Icc k n, binomPMF n i theta

/-- Modelled from the spec: the fixed rejection threshold converting the tail
probability into a keep/discard decision.  The spec leaves the exact constant
open ("default conservative"); the model fixes the conventional conservative
level 1/20. -/
def rejection_threshold : ℚ := 1 / 20

/-- Modelled from the spec: `Filter::is_significant` (declared in
`src/util/is_significant.hpp`, body not in the sources).  If the pooled counts
already look homozygous the position carries no information and is discarded;
otherwise the position is kept exactly when the exact binomial tail probability
of the observed minor-allele count falls below the rejection threshold. -/
def is_significant (bc : Fin 4 → ℕ) (theta : ℚ) : Bool :=
  if (likely_homozygous bc theta).isSome then false
  else decide (binomTail (coverage bc) (minorCount bc) theta < rejection_threshold)

/-- Modelled from the spec: the C++ declaration takes the base-count array by
non-const reference; the spec's lifecycle section states the filter never
mutates its inputs, so the reference parameter is modelled by returning the
array's final state alongside the boolean verdict. -/
def is_significant_ref (bc : Fin 4 → ℕ) (theta : ℚ) : Bool × (Fin 4 → ℕ) :=
  (is_significant bc theta, bc)

/-- Balanced (divide-and-conquer) product of the `len` consecutive integers
starting at `lo`; a proof device that lets concrete binomial quantities be
evaluated with shallow recursion depth. -/
def prodR : ℕ → ℕ → ℕ → ℕ
  | 0, lo, len => if len = 1 then lo else 1
  | f+1, lo, len =>
    if len ≤ 1 then (if len = 1 then lo else 1)
    else prodR f lo (len / 2) * prodR f (lo + len / 2) (len - len / 2)

/-- Binomial coefficient through balanced products (proof device). -/
def chooseR (n k : ℕ) : ℕ := prodR 12 (k + 1) (n - k) / prodR 12 1 (n - k)

/-- Modelled from the spec: binomial likelihood of the observed local counts
under a homozygous genotype on base `b`: all reads off `b` are sequencing
errors at rate `theta`. -/
def homLikelihood (bc : Fin 4 → ℕ) (b : Fin 4) (theta : ℚ) : ℚ :=
  binomPMF (coverage bc) (coverage bc - bc b) theta

/-- Modelled from the spec: binomial likelihood of the observed local counts
under the heterozygous genotype on bases `a` and `b`: reads off both alleles
are errors at rate `theta`, and the reads on the two alleles split evenly. -/
def hetLikelihood (bc : Fin 4 → ℕ) (a b : Fin 4) (theta : ℚ) : ℚ :=
  binomPMF (coverage bc) (coverage bc - bc a - bc b) theta *
    binomPMF (bc a + bc b) (bc a) (1/2)

/-- Modelled from the spec: `most_likely_genotype` (declared in
`src/variant_calling.hpp`, body not in the sources).  Returns `NO_GENOTYPE`
(`none`) only at zero coverage.  The two candidate alleles are the two
globally most frequent bases, read off the rank order `idx` (which sorts the
pooled counts ascending, so `idx 3` is the major and `idx 2` the minor
allele).  When the pooled data were judged homozygous the heterozygous
hypothesis is skipped and the homozygous-major genotype is returned directly;
otherwise the three candidate genotypes are weighted by the heterozygosity
prior and the highest posterior wins.  The C++ out-parameter `coverage` is
modelled as the second component of the returned pair. -/
def most_likely_genotype (nBases n_bases_total : Fin 4 → ℕ) (idx : Fin 4 → Fin 4)
    (likely_homozygous_total : Bool) (hetero_prior theta : ℚ) : Genotype × ℕ :=
  if coverage nBases = 0 then (none, 0)
  else
    let major := idx 3
    let minor := idx 2
    if likely_homozygous_total then (some (major, major), coverage nBases)
    else
      let pMajor := (1 - hetero_prior) / 2 * homLikelihood nBases major theta
      let pMinor := (1 - hetero_prior) / 2 * homLikelihood nBases minor theta
      let pHet := hetero_prior * hetLikelihood nBases major minor theta
      if pMajor < pHet ∧ pMinor < pHet then (some (minor, major), coverage nBases)
      else if pMajor < pMinor then (some (minor, minor), coverage nBases)
      else (some (major, major), coverage nBases)

/-- Modelled from the spec: one pileup row: a genomic position together with,
for each cell with coverage there, that cell's id and base counts. -/
structure PosData where
  position : ℕ
  cells : List (ℕ × (Fin 4 → ℕ))

/-- Modelled from the spec: pooling of a row's counts over the active
subcluster: each cell is remapped through `id_to_group` and then `id_to_pos`;
cells whose group is excluded (mapped to the `NO_POS` sentinel, modelled as
`none`) contribute nothing, the rest are summed base-wise. -/
def pooledCounts (id_to_group : List ℕ) (id_to_pos : List (Option ℕ))
    (row : PosData) : Fin 4 → ℕ := fun b =>
  ((row.cells.filter fun c => (id_to_pos.getD (id_to_group.getD c.1 0) none).isSome).map
    fun c => c.2 b).sum

/-- Modelled from the spec: the `PosData` overload of `Filter::is_significant`:
pools the counts across the cells present in the row (respecting the
group/position remapping) and delegates; the C++ `coverage` out-parameter is
the pooled coverage, modelled as the second component. -/
def is_significant_pos (id_to_group : List ℕ) (id_to_pos : List (Option ℕ))
    (row : PosData) (theta : ℚ) : Bool × ℕ :=
  (is_significant (pooledCounts id_to_group id_to_pos row) theta,
    coverage (pooledCounts id_to_group id_to_pos row))

/-- Keep decision for one pileup row. -/
def rowKeep (id_to_group : List ℕ) (id_to_pos : List (Option ℕ)) (rate : ℚ)
    (row : PosData) : Bool :=
  (is_significant_pos id_to_group id_to_pos row rate).1

/-- Pooled coverage of one pileup row. -/
def rowCoverage (id_to_group : List ℕ) (id_to_pos : List (Option ℕ))
    (row : PosData) : ℕ :=
  (is_significant_pos id_to_group id_to_pos row 0).2

/-- Size of the contiguous slice each of `t` workers receives. -/
def chunkSize (t len : ℕ) : ℕ := (len + t - 1) / t

/-- Fuel-indexed splitting of a list into contiguous chunks of size `s`. -/
def chunksAux {α : Type} (s : ℕ) : ℕ → List α → List (List α)
  | 0, _ => []
  | _+1, [] => []
  | f+1, x :: xs => (x :: xs).take s :: chunksAux s f ((x :: xs).drop s)

/-- Modelled from the spec: partition of the work into `num_threads` disjoint
contiguous slices. -/
def chunksOf {α : Type} (t : ℕ) (l : List α) : List (List α) :=
  chunksAux (chunkSize t l.length) l.length l

/-- One worker: filters its slice and accumulates its local coverage sum. -/
def filterWorker (id_to_group : List ℕ) (id_to_pos : List (Option ℕ)) (rate : ℚ)
    (rows : List PosData) : List PosData × ℕ :=
  (rows.filter (rowKeep id_to_group id_to_pos rate),
    ((rows.filter (rowKeep id_to_group id_to_pos rate)).map
      (rowCoverage id_to_group id_to_pos)).sum)

/-- Per-chromosome parallel filtering: the rows are split into `t` contiguous
slices, each worker processes one slice, and the per-worker buffers are merged
back in their original order. -/
def filterChr (id_to_group : List ℕ) (id_to_pos : List (Option ℕ)) (rate : ℚ)
    (t : ℕ) (rows : List PosData) : List PosData × ℕ :=
  ((((chunksOf t rows).map (filterWorker id_to_group id_to_pos rate)).map Prod.fst).flatten,
    (((chunksOf t rows).map (filterWorker id_to_group id_to_pos rate)).map Prod.snd).sum)

/-- Modelled from the spec: `Filter::filter` (declared in
`src/util/is_significant.hpp`, body not in the sources).  Keeps, chromosome by
chromosome, the positions whose pooled remapped counts are significant, using
`num_threads` workers on disjoint contiguous slices whose buffers are merged in
input order, and additionally returns the coverage averaged over the cells of
the current subcluster and over the kept positions (an exact rational; the
quotient is `0` when nothing is kept, so the average is division-by-zero
free).  `marker` is a bookkeeping label only. -/
def filter (pos_data : List (List PosData)) (id_to_group : List ℕ)
    (id_to_pos : List (Option ℕ)) (marker : String) (seq_error_rate : ℚ)
    (num_threads : ℕ) : List (List PosData) × ℚ :=
  let perChr := pos_data.map (filterChr id_to_group id_to_pos seq_error_rate num_threads)
  let kept := perChr.map Prod.fst
  let totalCov := (perChr.map Prod.snd).sum
  let nKept := (kept.map List.length).sum
  let nCells := (id_to_pos.filter Option.isSome).length
  (kept, (totalCov : ℚ) / ((nCells : ℚ) * (nKept : ℚ)))

/-- Modelled from the spec: the Stirling approximation used by `log_fact` at
and above the table threshold:
`n ln n - n + 0.5 ln(2 pi n) + 1/(12 n) - 1/(360 n^3)`. -/
noncomputable def stirling (n : ℕ) : ℝ :=
  n * Real.log n - n + Real.log (2 * Real.pi * n) / 2 + 1 / (12 * n) - 1 / (360 * n ^ 3)

/-- Modelled from the spec: `Filter::log_fact` (declared in
`src/util/is_significant.hpp`, body not in the sources).  Returns the exact
`ln(n!)` from a precomputed table for `n` below the fixed small threshold (the
model fixes the threshold at 4) and Stirling's approximation at or above it. -/
noncomputable def log_fact (n : ℕ) : ℝ :=
  if n < 4 then Real.log n.factorial else stirling n

lemma fin4_cases (i : Fin 4) : i = 0 ∨ i = 1 ∨ i = 2 ∨ i = 3 := by
  fin_cases i <;> simp

lemma le_dominant (bc : Fin 4 → ℕ) (i : Fin 4) : bc i ≤ bc (dominant bc) := by
  unfold dominant
  rcases fin4_cases i with h | h | h | h <;> subst h <;>
    split_ifs with h1 h2 h3 <;> omega

lemma fchoose_eq_choose (n k : ℕ) : fchoose n k = n.choose k := by
  unfold fchoose
  split_ifs with h
  · exact (Nat.choose_eq_factorial_div_factorial h).symm
  · exact (Nat.choose_eq_zero_of_lt (by omega)).symm

lemma prodR_eq : ∀ f lo len, len ≤ 2 ^ f →
    prodR f lo len = ∏ j in Finset.range len, (lo + j) := by
  intro f
  induction f with
  | zero =>
    intro lo len h
    interval_cases len <;> simp [prodR]
  | succ f ih =>
    intro lo len h
    by_cases hl : len ≤ 1
    · interval_cases len <;> simp [prodR]
    · have h2 : 2 ^ (f + 1) = 2 ^ f + 2 ^ f := by rw [pow_succ]; ring
      rw [h2] at h
      have hlo : len / 2 ≤ 2 ^ f := by omega
      have hhi : len - len / 2 ≤ 2 ^ f := by omega
      have hsplit : len / 2 + (len - len / 2) = len := by omega
      calc prodR (f+1) lo len
          = (∏ j in Finset.range (len / 2), (lo + j)) *
              ∏ j in Finset.range (len - len / 2), (lo + len / 2 + j) := by
            rw [prodR]
            rw [if_neg hl, ih _ _ hlo, ih _ _ hhi]
        _ = (∏ j in Finset.range (len / 2), (lo + j)) *
              ∏ j in Finset.range (len - len / 2), (lo + (len / 2 + j)) := by
            refine congrArg _ (Finset.prod_congr rfl fun j _ => ?_)
            ring
        _ = ∏ j in Finset.range (len / 2 + (len - len / 2)), (lo + j) :=
            (Finset.prod_range_add _ _ _).symm
        _ = ∏ j in Finset.range len, (lo + j) := by rw [hsplit]

lemma prodR_factorial (m : ℕ) (h : m ≤ 2 ^ 12) : prodR 12 1 m = m.factorial := by
  rw [prodR_eq 12 1 m h, ← Finset.prod_range_add_one_eq_factorial]
  exact Finset.prod_congr rfl fun j _ => by ring

lemma factorial_split (k m : ℕ) :
    (k + m).factorial = k.factorial * ∏ j in Finset.range m, (k + 1 + j) := by
  rw [← Finset.prod_range_add_one_eq_factorial, ← Finset.prod_range_add_one_eq_factorial,
    Finset.prod_range_add]
  exact congrArg _ (Finset.prod_congr rfl fun j _ => by ring)

lemma chooseR_eq (n k : ℕ) (hk : k ≤ n) (hn : n ≤ 2 ^ 12) : chooseR n k = n.choose k := by
  unfold chooseR
  rw [prodR_factorial (n - k) (by omega)]
  have hfac : k.factorial * prodR 12 (k + 1) (n - k) = n.factorial := by
    rw [prodR_eq 12 (k + 1) (n - k) (by omega)]
    have h := factorial_split k (n - k)
    rw [show k + (n - k) = n by omega] at h
    rw [h]
  have hmain : prodR 12 (k + 1) (n - k) = n.choose k * (n - k).factorial := by
    have h1 := Nat.choose_mul_factorial_mul_factorial hk
    have hkpos := Nat.factorial_pos k
    nlinarith [hfac, h1]
  rw [hmain, Nat.mul_div_cancel _ (Nat.factorial_pos _)]

lemma binomPMF_ratEval (n i a b : ℕ) (hb : 0 < b) (hab : a ≤ b) (hi : i ≤ n) :
    binomPMF n i ((a : ℚ) / b) =
      (n.choose i * a ^ i * (b - a) ^ (n - i) : ℕ) / (b : ℚ) ^ n := by
  have hbq : (0 : ℚ) < (b : ℚ) := by exact_mod_cast hb
  have hsub : ((b - a : ℕ) : ℚ) = (b : ℚ) - (a : ℚ) := by
    push_cast [hab]
    ring
  have hone : 1 - (a : ℚ) / b = ((b : ℚ) - a) / b := by
    field_simp
  unfold binomPMF
  rw [fchoose_eq_choose, hone, div_pow, div_pow]
  push_cast [hsub]
  rw [show (b : ℚ) ^ n = (b : ℚ) ^ i * (b : ℚ) ^ (n - i) by
    rw [← pow_add]
    congr 1
    omega]
  field_simp

lemma pmf_succ_le (n m : ℕ) (theta : ℚ) (h0 : 0 ≤ theta) (h1 : theta ≤ 1) (hm : m < n)
    (hcond : ((n - m : ℕ) : ℚ) * theta ≤ ((m + 1 : ℕ) : ℚ) * (1 - theta)) :
    binomPMF n (m + 1) theta ≤ binomPMF n m theta := by
  have hu : (0 : ℚ) ≤ 1 - theta := by linarith
  have hE : (0 : ℚ) ≤ theta ^ m * (1 - theta) ^ (n - m - 1) := by positivity
  have hid : (n.choose (m + 1) : ℚ) * (m + 1) = (n.choose m : ℚ) * ((n - m : ℕ) : ℚ) := by
    exact_mod_cast Nat.choose_succ_right_eq n m
  have hCC : (n.choose (m + 1) : ℚ) * theta ≤ (n.choose m : ℚ) * (1 - theta) := by
    have hmul : (n.choose (m + 1) : ℚ) * theta * (m + 1) ≤
        (n.choose m : ℚ) * (1 - theta) * (m + 1) := by
      have hc0 : (0 : ℚ) ≤ (n.choose m : ℚ) := by positivity
      calc (n.choose (m + 1) : ℚ) * theta * (m + 1)
          = (n.choose m : ℚ) * (((n - m : ℕ) : ℚ) * theta) := by
            rw [mul_comm ((n.choose (m + 1) : ℚ)) theta, mul_assoc, hid]
            ring
        _ ≤ (n.choose m : ℚ) * (((m + 1 : ℕ) : ℚ) * (1 - theta)) :=
            mul_le_mul_of_nonneg_left hcond hc0
        _ = (n.choose m : ℚ) * (1 - theta) * (m + 1) := by push_cast; ring
    have hpos : (0 : ℚ) < (m + 1 : ℚ) := by positivity
    exact le_of_mul_le_mul_right hmul hpos
  unfold binomPMF
  rw [fchoose_eq_choose, fchoose_eq_choose]
  obtain ⟨r, hr⟩ : ∃ r, n - m = r + 1 := ⟨n - m - 1, by omega⟩
  calc (n.choose (m + 1) : ℚ) * theta ^ (m + 1) * (1 - theta) ^ (n - (m + 1))
      = ((n.choose (m + 1) : ℚ) * theta) * (theta ^ m * (1 - theta) ^ (n - m - 1)) := by
        rw [show n - (m + 1) = n - m - 1 from by omega, pow_succ]
        ring
    _ ≤ ((n.choose m : ℚ) * (1 - theta)) * (theta ^ m * (1 - theta) ^ (n - m - 1)) :=
        mul_le_mul_of_nonneg_right hCC hE
    _ = (n.choose m : ℚ) * theta ^ m * (1 - theta) ^ (n - m) := by
        rw [hr, Nat.add_sub_cancel, pow_succ]
        ring

lemma pmf_le_of_ge (n k : ℕ) (theta : ℚ) (h0 : 0 ≤ theta) (h1 : theta ≤ 1)
    (hcond : ((n - k : ℕ) : ℚ) * theta ≤ ((k + 1 : ℕ) : ℚ) * (1 - theta)) :
    ∀ j, k + j ≤ n → binomPMF n (k + j) theta ≤ binomPMF n k theta := by
  intro j
  induction j with
  | zero => intro _; exact le_of_eq rfl
  | succ j ih =>
    intro hj
    have hm : k + j < n := by omega
    have hcondm : ((n - (k + j) : ℕ) : ℚ) * theta ≤ ((k + j + 1 : ℕ) : ℚ) * (1 - theta) := by
      have hu : (0 : ℚ) ≤ 1 - theta := by linarith
      have c1 : ((n - (k + j) : ℕ) : ℚ) ≤ ((n - k : ℕ) : ℚ) := by
        have : n - (k + j) ≤ n - k := by omega
        exact_mod_cast this
      have c2 : ((k + 1 : ℕ) : ℚ) ≤ ((k + j + 1 : ℕ) : ℚ) := by
        have : k + 1 ≤ k + j + 1 := by omega
        exact_mod_cast this
      calc ((n - (k + j) : ℕ) : ℚ) * theta ≤ ((n - k : ℕ) : ℚ) * theta :=
            mul_le_mul_of_nonneg_right c1 h0
        _ ≤ ((k + 1 : ℕ) : ℚ) * (1 - theta) := hcond
        _ ≤ ((k + j + 1 : ℕ) : ℚ) * (1 - theta) := mul_le_mul_of_nonneg_right c2 hu
    have hstep := pmf_succ_le n (k + j) theta h0 h1 hm hcondm
    rw [show k + (j + 1) = k + j + 1 from by ring]
    exact le_trans hstep (ih (by omega))

lemma binomTail_le_card_mul (n k : ℕ) (theta : ℚ) (h0 : 0 ≤ theta) (h1 : theta ≤ 1)
    (hcond : ((n - k : ℕ) : ℚ) * theta ≤ ((k + 1 : ℕ) : ℚ) * (1 - theta)) :
    binomTail n k theta ≤ ((n + 1 - k : ℕ) : ℚ) * binomPMF n k theta := by
  unfold binomTail
  have hbound : ∀ i ∈ Finset.Icc k n, binomPMF n i theta ≤ binomPMF n k theta := by
    intro i hi
    rw [Finset.mem_Icc] at hi
    have h := pmf_le_of_ge n k theta h0 h1 hcond (i - k) (by omega)
    rw [show k + (i - k) = i from by omega] at h
    exact h
  calc (∑ i in Finset.Icc k n, binomPMF n i theta)
      ≤ (Finset.Icc k n).card • binomPMF n k theta :=
        Finset.sum_le_card_nsmul _ _ _ hbound
    _ = ((n + 1 - k : ℕ) : ℚ) * binomPMF n k theta := by
        rw [Nat.card_Icc, nsmul_eq_mul]

lemma big_tail_lt : binomTail 990 490 (1 / 100 : ℚ) < 1 / 20 := by
  have hchoose : Nat.choose 990 490 = chooseR 990 490 :=
    (chooseR_eq 990 490 (by norm_num) (by norm_num)).symm
  have hcond : ((990 - 490 : ℕ) : ℚ) * (1 / 100 : ℚ) ≤
      ((490 + 1 : ℕ) : ℚ) * (1 - (1 / 100 : ℚ)) := by norm_num
  have hb := binomTail_le_card_mul 990 490 (1 / 100) (by norm_num) (by norm_num) hcond
  have h0 : (1 / 100 : ℚ) = ((1 : ℕ) : ℚ) / ((100 : ℕ) : ℚ) := by norm_num
  have hpmf : binomPMF 990 490 (1 / 100 : ℚ) =
      ((chooseR 990 490 * 1 ^ 490 * 99 ^ 500 : ℕ) : ℚ) / ((100 : ℕ) : ℚ) ^ 990 := by
    rw [h0, binomPMF_ratEval 990 490 1 100 (by norm_num) (by norm_num) (by norm_num),
      hchoose]
  have hkey : 20 * (501 * (chooseR 990 490 * 1 ^ 490 * 99 ^ 500)) < 100 ^ 990 := by
    set_option maxRecDepth 40000 in with_unfolding_all decide
  have hcard : ((990 + 1 - 490 : ℕ) : ℚ) = (501 : ℚ) := by norm_num
  rw [hcard, hpmf] at hb
  have hkeyq := (Nat.cast_lt (α := ℚ)).mpr hkey
  have hD : (0 : ℚ) < ((100 : ℕ) : ℚ) ^ 990 := by positivity
  calc binomTail 990 490 (1 / 100 : ℚ)
      ≤ (501 : ℚ) * (((chooseR 990 490 * 1 ^ 490 * 99 ^ 500 : ℕ) : ℚ) /
          ((100 : ℕ) : ℚ) ^ 990) := hb
    _ < 1 / 20 := by
        rw [← mul_div_assoc, div_lt_iff₀ hD]
        push_cast at hkeyq ⊢
        linarith

lemma binomPMF_nonneg (n i : ℕ) (theta : ℚ) (h0 : 0 ≤ theta) (h1 : theta ≤ 1) :
    0 ≤ binomPMF n i theta := by
  unfold binomPMF
  have : (0 : ℚ) ≤ 1 - theta := by linarith
  positivity

lemma binomPMF_pos (n i : ℕ) (theta : ℚ) (h0 : 0 < theta) (h1 : theta < 1) (hi : i ≤ n) :
    0 < binomPMF n i theta := by
  unfold binomPMF
  rw [fchoose_eq_choose]
  have hc : 0 < (n.choose i : ℚ) := by
    exact_mod_cast Nat.choose_pos hi
  have : (0 : ℚ) < 1 - theta := by linarith
  positivity

lemma binomTail_anti (n k k' : ℕ) (theta : ℚ) (h0 : 0 ≤ theta) (h1 : theta ≤ 1)
    (hkk : k ≤ k') : binomTail n k' theta ≤ binomTail n k theta := by
  unfold binomTail
  refine Finset.sum_le_sum_of_subset_of_nonneg ?_ ?_
  · intro i hi
    rw [Finset.mem_Icc] at hi ⊢
    omega
  · intro i _ _
    exact binomPMF_nonneg n i theta h0 h1

lemma binomTail_zero_eq_one (n : ℕ) (theta : ℚ) : binomTail n 0 theta = 1 := by
  unfold binomTail binomPMF
  have hicc : Finset.Icc 0 n = Finset.range (n + 1) := by
    rw [← Nat.Ico_succ_right, Finset.range_eq_Ico]
  rw [hicc]
  have hbin := add_pow theta (1 - theta) n
  rw [show theta + (1 - theta) = 1 by ring, one_pow] at hbin
  have hcongr : ∑ i in Finset.range (n + 1),
      (fchoose n i : ℚ) * theta ^ i * (1 - theta) ^ (n - i) =
      ∑ i in Finset.range (n + 1), theta ^ i * (1 - theta) ^ (n - i) * (n.choose i : ℚ) := by
    refine Finset.sum_congr rfl fun i _ => ?_
    rw [fchoose_eq_choose]
    ring
  rw [hcongr]
  exact hbin.symm

lemma rat_le_cancel (a b c : ℚ) (hc : 0 < c) (h : a * c ≤ b * c) : a ≤ b :=
  le_of_mul_le_mul_right h hc

lemma pmf_le_succ (n m : ℕ) (theta : ℚ) (h0 : 0 ≤ theta) (h1 : theta ≤ 1) (hm : m < n)
    (hcond : ((m + 1 : ℕ) : ℚ) * (1 - theta) ≤ ((n - m : ℕ) : ℚ) * theta) :
    binomPMF n m theta ≤ binomPMF n (m + 1) theta := by
  have hu : (0 : ℚ) ≤ 1 - theta := by linarith
  have hE : (0 : ℚ) ≤ theta ^ m * (1 - theta) ^ (n - m - 1) := by positivity
  have hid : (n.choose (m + 1) : ℚ) * (m + 1) = (n.choose m : ℚ) * ((n - m : ℕ) : ℚ) := by
    exact_mod_cast Nat.choose_succ_right_eq n m
  have hCC : (n.choose m : ℚ) * (1 - theta) ≤ (n.choose (m + 1) : ℚ) * theta := by
    have hmul : (n.choose m : ℚ) * (1 - theta) * (m + 1) ≤
        (n.choose (m + 1) : ℚ) * theta * (m + 1) := by
      have hc0 : (0 : ℚ) ≤ (n.choose m : ℚ) := by positivity
      calc (n.choose m : ℚ) * (1 - theta) * (m + 1)
          = (n.choose m : ℚ) * (((m + 1 : ℕ) : ℚ) * (1 - theta)) := by push_cast; ring
        _ ≤ (n.choose m : ℚ) * (((n - m : ℕ) : ℚ) * theta) :=
            mul_le_mul_of_nonneg_left hcond hc0
        _ = (n.choose (m + 1) : ℚ) * theta * (m + 1) := by rw [mul_comm ((n - m : ℕ) : ℚ) theta,
              ← mul_assoc, mul_comm ((n.choose m : ℚ)) theta, mul_assoc, ← hid]; ring
    have hpos : (0 : ℚ) < (m + 1 : ℚ) := by positivity
    exact le_of_mul_le_mul_right hmul hpos
  unfold binomPMF
  rw [fchoose_eq_choose, fchoose_eq_choose]
  obtain ⟨r, hr⟩ : ∃ r, n - m = r + 1 := ⟨n - m - 1, by omega⟩
  calc (n.choose m : ℚ) * theta ^ m * (1 - theta) ^ (n - m)
      = ((n.choose m : ℚ) * (1 - theta)) * (theta ^ m * (1 - theta) ^ (n - m - 1)) := by
        rw [hr, Nat.add_sub_cancel, pow_succ]
        ring
    _ ≤ ((n.choose (m + 1) : ℚ) * theta) * (theta ^ m * (1 - theta) ^ (n - m - 1)) :=
        mul_le_mul_of_nonneg_right hCC hE
    _ = (n.choose (m + 1) : ℚ) * theta ^ (m + 1) * (1 - theta) ^ (n - (m + 1)) := by
        rw [show n - (m + 1) = n - m - 1 from by omega, hr, Nat.add_sub_cancel, pow_succ]
        ring

lemma pmf_cross_core (n p q : ℕ) (theta : ℚ) (h0 : 0 ≤ theta) (h1 : theta ≤ 1)
    (hp : p < n) (hq : q < n)
    (hcore : ((p + 1 : ℚ)) * ((q + 1 : ℚ)) * (1 - theta) ^ 2 ≤
      ((n - p : ℕ) : ℚ) * ((n - q : ℕ) : ℚ) * theta ^ 2) :
    binomPMF n p theta * binomPMF n q theta ≤
      binomPMF n (p + 1) theta * binomPMF n (q + 1) theta := by
  have hu : (0 : ℚ) ≤ 1 - theta := by linarith
  have hE : (0 : ℚ) ≤ theta ^ p * theta ^ q * (1 - theta) ^ (n - p - 1) *
      (1 - theta) ^ (n - q - 1) := by positivity
  have hidp : (n.choose (p + 1) : ℚ) * (p + 1) = (n.choose p : ℚ) * ((n - p : ℕ) : ℚ) := by
    exact_mod_cast Nat.choose_succ_right_eq n p
  have hidq : (n.choose (q + 1) : ℚ) * (q + 1) = (n.choose q : ℚ) * ((n - q : ℕ) : ℚ) := by
    exact_mod_cast Nat.choose_succ_right_eq n q
  have hCC : (n.choose p : ℚ) * (n.choose q : ℚ) * (1 - theta) ^ 2 ≤
      (n.choose (p + 1) : ℚ) * (n.choose (q + 1) : ℚ) * theta ^ 2 := by
    have hpos : (0 : ℚ) < ((p : ℚ) + 1) * ((q : ℚ) + 1) := by positivity
    refine le_of_mul_le_mul_right ?_ hpos
    have hc0 : (0 : ℚ) ≤ (n.choose p : ℚ) * (n.choose q : ℚ) := by positivity
    calc (n.choose p : ℚ) * (n.choose q : ℚ) * (1 - theta) ^ 2 * (((p : ℚ) + 1) * ((q : ℚ) + 1))
        = ((n.choose p : ℚ) * (n.choose q : ℚ)) *
            (((p : ℚ) + 1) * ((q : ℚ) + 1) * (1 - theta) ^ 2) := by ring
      _ ≤ ((n.choose p : ℚ) * (n.choose q : ℚ)) *
            (((n - p : ℕ) : ℚ) * ((n - q : ℕ) : ℚ) * theta ^ 2) :=
          mul_le_mul_of_nonneg_left hcore hc0
      _ = ((n.choose p : ℚ) * ((n - p : ℕ) : ℚ)) * ((n.choose q : ℚ) * ((n - q : ℕ) : ℚ)) *
            theta ^ 2 := by ring
      _ = ((n.choose (p + 1) : ℚ) * (p + 1)) * ((n.choose (q + 1) : ℚ) * (q + 1)) *
            theta ^ 2 := by rw [hidp, hidq]
      _ = (n.choose (p + 1) : ℚ) * (n.choose (q + 1) : ℚ) * theta ^ 2 *
            (((p : ℚ) + 1) * ((q : ℚ) + 1)) := by ring
  unfold binomPMF
  rw [fchoose_eq_choose, fchoose_eq_choose, fchoose_eq_choose, fchoose_eq_choose]
  obtain ⟨r, hr⟩ : ∃ r, n - p = r + 1 := ⟨n - p - 1, by omega⟩
  obtain ⟨t, ht⟩ : ∃ t, n - q = t + 1 := ⟨n - q - 1, by omega⟩
  calc (n.choose p : ℚ) * theta ^ p * (1 - theta) ^ (n - p) *
        ((n.choose q : ℚ) * theta ^ q * (1 - theta) ^ (n - q))
      = ((n.choose p : ℚ) * (n.choose q : ℚ) * (1 - theta) ^ 2) *
          (theta ^ p * theta ^ q * (1 - theta) ^ (n - p - 1) * (1 - theta) ^ (n - q - 1)) := by
        rw [hr, ht, Nat.add_sub_cancel, Nat.add_sub_cancel, pow_succ, pow_succ]
        ring
    _ ≤ ((n.choose (p + 1) : ℚ) * (n.choose (q + 1) : ℚ) * theta ^ 2) *
          (theta ^ p * theta ^ q * (1 - theta) ^ (n - p - 1) * (1 - theta) ^ (n - q - 1)) :=
        mul_le_mul_of_nonneg_right hCC hE
    _ = (n.choose (p + 1) : ℚ) * theta ^ (p + 1) * (1 - theta) ^ (n - (p + 1)) *
          ((n.choose (q + 1) : ℚ) * theta ^ (q + 1) * (1 - theta) ^ (n - (q + 1))) := by
        rw [show n - (p + 1) = n - p - 1 from by omega,
          show n - (q + 1) = n - q - 1 from by omega, hr, ht,
          Nat.add_sub_cancel, Nat.add_sub_cancel, pow_succ, pow_succ]
        ring

lemma two_k_le_n (n k : ℕ) (theta : ℚ) (h2 : theta ≤ 1/2) (hkn : (k : ℚ) ≤ n * theta) :
    2 * k ≤ n := by
  have hn0 : (0 : ℚ) ≤ (n : ℚ) := by positivity
  have hq : (2 : ℚ) * k ≤ n := by nlinarith
  exact_mod_cast hq

set_option maxHeartbeats 1600000 in
lemma pmf_pair (n k : ℕ) (theta : ℚ) (h0 : 0 < theta) (h2 : theta ≤ 1/2) (hk1 : 1 ≤ k)
    (hkn : (k : ℚ) ≤ n * theta) :
    ∀ d, d < k → binomPMF n (k - 1 - d) theta ≤ binomPMF n (k + d) theta := by
  have h1 : theta < 1 := by linarith
  have h2k : 2 * k ≤ n := two_k_le_n n k theta h2 hkn
  intro d
  induction d with
  | zero =>
    intro _
    have hstep := pmf_le_succ n (k - 1) theta (le_of_lt h0) (le_of_lt h1) (by omega) ?_
    · rw [show k - 1 + 1 = k from by omega] at hstep
      simpa using hstep
    · rw [show k - 1 + 1 = k from by omega, show n - (k - 1) = n - k + 1 from by omega]
      have hc1 : ((n - k + 1 : ℕ) : ℚ) = (n : ℚ) - k + 1 := by
        push_cast [show k ≤ n from by omega]
        ring
      rw [hc1]
      push_cast
      nlinarith
  | succ d ih =>
    intro hd
    have ihd : binomPMF n (k - 1 - d) theta ≤ binomPMF n (k + d) theta := ih (by omega)
    have hq : k + d < n := by omega
    have hp : k - d - 2 < n := by omega
    have hcore : ((k - d - 2 : ℕ) + 1 : ℚ) * ((k + d : ℕ) + 1 : ℚ) * (1 - theta) ^ 2 ≤
        ((n - (k - d - 2) : ℕ) : ℚ) * ((n - (k + d) : ℕ) : ℚ) * theta ^ 2 := by
      have e1 : ((k - d - 2 : ℕ) : ℚ) = (k : ℚ) - (d : ℚ) - 2 := by
        rw [show k - d - 2 = k - (d + 2) from by omega,
          Nat.cast_sub (show d + 2 ≤ k from by omega)]
        push_cast
        ring
      have e2 : ((n - (k - d - 2) : ℕ) : ℚ) = (n : ℚ) - (k : ℚ) + (d : ℚ) + 2 := by
        rw [show n - (k - d - 2) = n - k + (d + 2) from by omega,
          Nat.cast_add, Nat.cast_sub (show k ≤ n from by omega)]
        push_cast
        ring
      have e3 : ((n - (k + d) : ℕ) : ℚ) = (n : ℚ) - (k : ℚ) - (d : ℚ) := by
        rw [Nat.cast_sub (show k + d ≤ n from by omega)]
        push_cast
        ring
      rw [e1, e2, e3]
      push_cast
      have hf1 : (k : ℚ) * (1 - theta) ≤ ((n : ℚ) - k + 1) * theta := by nlinarith
      have hf1n : (0 : ℚ) ≤ (k : ℚ) * (1 - theta) := by
        have : (0 : ℚ) ≤ (k : ℚ) := by positivity
        nlinarith
      have hf2 : ((k : ℚ) * (1 - theta)) ^ 2 ≤ (((n : ℚ) - k + 1) * theta) ^ 2 := by
        have := mul_self_le_mul_self hf1n hf1
        nlinarith [this]
      have hf3 : ((d : ℚ) + 1) ^ 2 * theta ^ 2 ≤ ((d : ℚ) + 1) ^ 2 * (1 - theta) ^ 2 := by
        have hts : theta ^ 2 ≤ (1 - theta) ^ 2 := by nlinarith
        have hd2 : (0 : ℚ) ≤ ((d : ℚ) + 1) ^ 2 := by positivity
        nlinarith
      linarith [hf2, hf3]
    have hcross := pmf_cross_core n (k - d - 2) (k + d) theta (le_of_lt h0) (le_of_lt h1)
      hp hq hcore
    rw [show k - d - 2 + 1 = k - 1 - d from by omega] at hcross
    have hDpos : 0 < binomPMF n (k + d) theta :=
      binomPMF_pos n (k + d) theta h0 h1 (by omega)
    have hD1nn : 0 ≤ binomPMF n (k + d + 1) theta :=
      binomPMF_nonneg n (k + d + 1) theta (le_of_lt h0) (le_of_lt h1)
    have hchain : binomPMF n (k - d - 2) theta * binomPMF n (k + d) theta ≤
        binomPMF n (k + d + 1) theta * binomPMF n (k + d) theta := by
      calc binomPMF n (k - d - 2) theta * binomPMF n (k + d) theta
          ≤ binomPMF n (k - 1 - d) theta * binomPMF n (k + d + 1) theta := hcross
        _ ≤ binomPMF n (k + d) theta * binomPMF n (k + d + 1) theta :=
            mul_le_mul_of_nonneg_right ihd hD1nn
        _ = binomPMF n (k + d + 1) theta * binomPMF n (k + d) theta := by ring
    have hfin : binomPMF n (k - d - 2) theta ≤ binomPMF n (k + d + 1) theta :=
      rat_le_cancel (binomPMF n (k - d - 2) theta) (binomPMF n (k + d + 1) theta)
        (binomPMF n (k + d) theta) hDpos hchain
    rw [show k - 1 - (d + 1) = k - d - 2 from by omega, show k + (d + 1) = k + d + 1 from by omega]
    exact hfin

lemma binomTail_half (n k : ℕ) (theta : ℚ) (h0 : 0 ≤ theta) (h2 : theta ≤ 1/2)
    (hkn : (k : ℚ) ≤ n * theta) : 1/2 ≤ binomTail n k theta := by
  rcases Nat.eq_zero_or_pos k with hk0 | hk1
  · subst hk0
    rw [binomTail_zero_eq_one]
    norm_num
  · have hth0 : 0 < theta := by
      rcases lt_or_eq_of_le h0 with h | h
      · exact h
      · exfalso
        rw [← h] at hkn
        have : (k : ℚ) ≤ 0 := by linarith [hkn]
        have : k = 0 := by exact_mod_cast le_antisymm this (by positivity)
        omega
    have h1 : theta ≤ 1 := by linarith
    have h2k : 2 * k ≤ n := two_k_le_n n k theta h2 hkn
    have hsplit : binomTail n 0 theta =
        (∑ i in Finset.range k, binomPMF n i theta) + binomTail n k theta := by
      unfold binomTail
      rw [← Nat.Ico_succ_right, ← Nat.Ico_succ_right, Finset.range_eq_Ico]
      exact (Finset.sum_Ico_consecutive _ (by omega) (by omega)).symm
    have hlow : (∑ i in Finset.range k, binomPMF n i theta) ≤ binomTail n k theta := by
      have hreflect : (∑ i in Finset.range k, binomPMF n i theta) =
          ∑ j in Finset.range k, binomPMF n (k - 1 - j) theta :=
        (Finset.sum_range_reflect (fun i => binomPMF n i theta) k).symm
      have hpair : (∑ j in Finset.range k, binomPMF n (k - 1 - j) theta) ≤
          ∑ j in Finset.range k, binomPMF n (k + j) theta := by
        refine Finset.sum_le_sum fun j hj => ?_
        rw [Finset.mem_range] at hj
        exact pmf_pair n k theta hth0 h2 hk1 hkn j hj
      have hico : (∑ j in Finset.range k, binomPMF n (k + j) theta) =
          ∑ i in Finset.Ico k (k + k), binomPMF n i theta := by
        rw [Finset.sum_Ico_eq_sum_range, show k + k - k = k from by omega]
      have hsub : (∑ i in Finset.Ico k (k + k), binomPMF n i theta) ≤ binomTail n k theta := by
        unfold binomTail
        rw [← Nat.Ico_succ_right]
        refine Finset.sum_le_sum_of_subset_of_nonneg ?_ ?_
        · intro i hi
          rw [Finset.mem_Ico] at hi ⊢
          omega
        · intro i _ _
          exact binomPMF_nonneg n i theta h0 h1
      rw [hreflect]
      calc (∑ j in Finset.range k, binomPMF n (k - 1 - j) theta)
          ≤ ∑ j in Finset.range k, binomPMF n (k + j) theta := hpair
        _ = ∑ i in Finset.Ico k (k + k), binomPMF n i theta := hico
        _ ≤ binomTail n k theta := hsub
    have htot : binomTail n 0 theta = 1 := binomTail_zero_eq_one n theta
    linarith [hsplit, hlow, htot]

lemma likely_homozygous_of_zero (bc : Fin 4 → ℕ) (theta : ℚ) (hc : coverage bc = 0) :
    likely_homozygous bc theta = none := by
  unfold likely_homozygous
  rw [if_pos hc]

lemma likely_homozygous_eq_none_iff (bc : Fin 4 → ℕ) (theta : ℚ) (hc : coverage bc ≠ 0) :
    likely_homozygous bc theta = none ↔
      ¬(((minorCount bc : ℚ) - coverage bc * theta) ^ 2 ≤
          coverage bc * theta * (1 - theta)) := by
  unfold likely_homozygous
  rw [if_neg hc]
  split_ifs with h <;> simp [h]

lemma likely_homozygous_eq_some_iff (bc : Fin 4 → ℕ) (theta : ℚ) (hc : coverage bc ≠ 0) :
    likely_homozygous bc theta = some (dominant bc, dominant bc) ↔
      ((minorCount bc : ℚ) - coverage bc * theta) ^ 2 ≤
        coverage bc * theta * (1 - theta) := by
  unfold likely_homozygous
  rw [if_neg hc]
  split_ifs with h <;> simp [h]

lemma is_significant_iff (bc : Fin 4 → ℕ) (theta : ℚ) :
    is_significant bc theta = true ↔
      likely_homozygous bc theta = none ∧
        binomTail (coverage bc) (minorCount bc) theta < rejection_threshold := by
  unfold is_significant
  split_ifs with h
  · simp only [Bool.false_eq_true, false_iff]
    intro hc
    rw [hc.1] at h
    simp at h
  · rw [Option.not_isSome_iff_eq_none] at h
    simp [h]

lemma minorCount_of_zero (bc : Fin 4 → ℕ) (hc : coverage bc = 0) : minorCount bc = 0 := by
  unfold minorCount
  omega

/-- C1: for a fixed total coverage and fixed theta, `is_significant` is
monotone in the minor-allele count: a significant base-count distribution stays
significant when the minor-allele count grows while the coverage is unchanged.
The error rate is constrained to `0 ≤ theta ≤ 1/2`, the regime the spec
prescribes for a sequencing error rate (nominal range 1e-3 to 1e-2). -/
theorem is_significant_mono_minor (bc bc' : Fin 4 → ℕ) (theta : ℚ)
    (h0 : 0 ≤ theta) (h2 : theta ≤ 1/2)
    (hcov : coverage bc' = coverage bc)
    (hmin : minorCount bc ≤ minorCount bc')
    (hsig : is_significant bc theta = true) :
    is_significant bc' theta = true := by
  obtain ⟨hhom, htail⟩ := (is_significant_iff bc theta).mp hsig
  have h1 : theta ≤ 1 := by linarith
  have hth : rejection_threshold = 1/20 := rfl
  rcases Nat.eq_zero_or_pos (coverage bc) with hc0 | hcpos
  · exfalso
    rw [hc0, minorCount_of_zero bc hc0, binomTail_zero_eq_one, hth] at htail
    norm_num at htail
  · have hcne : coverage bc ≠ 0 := by omega
    have hmed : ¬((minorCount bc : ℚ) ≤ (coverage bc : ℚ) * theta) := by
      intro hle
      have := binomTail_half (coverage bc) (minorCount bc) theta h0 h2 hle
      rw [hth] at htail
      linarith
    have hgt : (coverage bc : ℚ) * theta < (minorCount bc : ℚ) := lt_of_not_le hmed
    have hband := (likely_homozygous_eq_none_iff bc theta hcne).mp hhom
    have hband' : (coverage bc : ℚ) * theta * (1 - theta) <
        ((minorCount bc : ℚ) - coverage bc * theta) ^ 2 := lt_of_not_le hband
    have hmq : (minorCount bc : ℚ) ≤ (minorCount bc' : ℚ) := by exact_mod_cast hmin
    have hsq : ((minorCount bc : ℚ) - coverage bc * theta) ^ 2 ≤
        ((minorCount bc' : ℚ) - coverage bc * theta) ^ 2 := by
      have ha : (0 : ℚ) ≤ (minorCount bc : ℚ) - coverage bc * theta := by linarith
      have hb : (minorCount bc : ℚ) - coverage bc * theta ≤
          (minorCount bc' : ℚ) - coverage bc * theta := by linarith
      have := mul_self_le_mul_self ha hb
      nlinarith [this]
    have hhom' : likely_homozygous bc' theta = none := by
      rw [likely_homozygous_eq_none_iff bc' theta (by omega), hcov]
      intro hcon
      linarith
    have htail' : binomTail (coverage bc') (minorCount bc') theta < rejection_threshold := by
      rw [hcov]
      calc binomTail (coverage bc) (minorCount bc') theta
          ≤ binomTail (coverage bc) (minorCount bc) theta :=
            binomTail_anti (coverage bc) _ _ theta h0 h1 hmin
        _ < rejection_threshold := htail
    exact (is_significant_iff bc' theta).mpr ⟨hhom', htail'⟩

/-- C1 witness: `{900,100,0,0}`-style monotonicity at concrete small inputs:
`{6,4,0,0}` is significant at `theta = 1/10`, hence so is `{5,5,0,0}` with the
same coverage and a larger minor-allele count. -/
theorem is_significant_mono_minor_witness : is_significant ![5, 5, 0, 0] (1/10) = true :=
  is_significant_mono_minor ![6, 4, 0, 0] ![5, 5, 0, 0] (1/10)
    (by norm_num) (by norm_num) (by with_unfolding_all decide)
    (by with_unfolding_all decide) (by with_unfolding_all decide)

lemma abs_le_sqrt_iff (x v : ℝ) (hv : 0 ≤ v) : |x| ≤ Real.sqrt v ↔ x ^ 2 ≤ v := by
  rw [Real.le_sqrt (abs_nonneg x) hv, sq_abs]

lemma homo_cond_cast (bc : Fin 4 → ℕ) (theta : ℚ) :
    (((minorCount bc : ℚ) - coverage bc * theta) ^ 2 ≤
        (coverage bc : ℚ) * theta * (1 - theta)) ↔
      (((minorCount bc : ℝ) - (coverage bc : ℝ) * (theta : ℝ)) ^ 2 ≤
        (coverage bc : ℝ) * (theta : ℝ) * (1 - (theta : ℝ))) := by
  constructor
  · intro h
    exact_mod_cast h
  · intro h
    exact_mod_cast h

/-- C3: a position whose pooled counts already look homozygous is never
significant; and the two concrete contracts from the spec:
`is_significant({1000,5,3,2}, 0.01) = false`,
`is_significant({500,480,5,5}, 0.01) = true`. -/
theorem homozygous_not_significant :
    (∀ (bc : Fin 4 → ℕ) (theta : ℚ),
        (likely_homozygous bc theta).isSome = true → is_significant bc theta = false) ∧
      is_significant ![1000, 5, 3, 2] (1/100) = false ∧
      is_significant ![500, 480, 5, 5] (1/100) = true := by
  refine ⟨fun bc theta h => ?_, ?_, ?_⟩
  · unfold is_significant
    rw [if_pos h]
  · with_unfolding_all decide
  · have hhom : (likely_homozygous ![500, 480, 5, 5] ((1 : ℚ)/100)).isSome = false := by
      with_unfolding_all decide
    have hcov : coverage ![500, 480, 5, 5] = 990 := by with_unfolding_all decide
    have hmin : minorCount ![500, 480, 5, 5] = 490 := by with_unfolding_all decide
    rw [is_significant_iff]
    refine ⟨Option.not_isSome_iff_eq_none.mp (by rw [hhom]; simp), ?_⟩
    rw [hcov, hmin, show rejection_threshold = 1/20 from rfl]
    exact big_tail_lt

/-- C3 witness: the general part applied at the concrete homozygous-looking
input `{1000,5,3,2}` with `theta = 0.01`. -/
theorem homozygous_not_significant_witness :
    is_significant ![1000, 5, 3, 2] (1/100) = false :=
  homozygous_not_significant.1 ![1000, 5, 3, 2] (1/100) (by with_unfolding_all decide)

/-- C4: `likely_homozygous` picks the base with the highest count as dominant
and returns the doubled-dominant genotype exactly when the non-dominant total
is within one standard deviation (binomial noise model) of its expectation,
`NO_GENOTYPE` otherwise; plus the two concrete contracts from the spec. -/
theorem likely_homozygous_spec :
    (∀ (bc : Fin 4 → ℕ) (theta : ℚ), 0 ≤ theta → theta ≤ 1 → coverage bc ≠ 0 →
      ((∀ i, bc i ≤ bc (dominant bc)) ∧
        (likely_homozygous bc theta = some (dominant bc, dominant bc) ↔
          |(minorCount bc : ℝ) - (coverage bc : ℝ) * (theta : ℝ)| ≤
            Real.sqrt ((coverage bc : ℝ) * (theta : ℝ) * (1 - (theta : ℝ)))) ∧
        (likely_homozygous bc theta = none ↔
          ¬ |(minorCount bc : ℝ) - (coverage bc : ℝ) * (theta : ℝ)| ≤
            Real.sqrt ((coverage bc : ℝ) * (theta : ℝ) * (1 - (theta : ℝ)))))) ∧
      likely_homozygous ![1000, 5, 3, 2] (1/100) = some (0, 0) ∧
      likely_homozygous ![500, 480, 5, 5] (1/100) = none := by
  refine ⟨fun bc theta h0 h1 hc => ?_, by with_unfolding_all decide,
    by with_unfolding_all decide⟩
  have hv : (0 : ℝ) ≤ (coverage bc : ℝ) * (theta : ℝ) * (1 - (theta : ℝ)) := by
    have ht0 : (0 : ℝ) ≤ (theta : ℝ) := by exact_mod_cast h0
    have ht1 : (theta : ℝ) ≤ 1 := by exact_mod_cast h1
    have hcnn : (0 : ℝ) ≤ (coverage bc : ℝ) := by positivity
    have h1t : (0 : ℝ) ≤ 1 - (theta : ℝ) := by linarith
    positivity
  have hbridge : (((minorCount bc : ℚ) - coverage bc * theta) ^ 2 ≤
      (coverage bc : ℚ) * theta * (1 - theta)) ↔
      |(minorCount bc : ℝ) - (coverage bc : ℝ) * (theta : ℝ)| ≤
        Real.sqrt ((coverage bc : ℝ) * (theta : ℝ) * (1 - (theta : ℝ))) := by
    rw [abs_le_sqrt_iff _ _ hv]
    exact homo_cond_cast bc theta
  refine ⟨le_dominant bc, ?_, ?_⟩
  · rw [likely_homozygous_eq_some_iff bc theta hc]
    exact hbridge
  · rw [likely_homozygous_eq_none_iff bc theta hc]
    exact not_congr hbridge

/-- C4 witness: the general characterisation applied at `{1000,5,3,2}`,
`theta = 0.01`. -/
theorem likely_homozygous_spec_witness :
    (∀ i, (![1000, 5, 3, 2] : Fin 4 → ℕ) i ≤ (![1000, 5, 3, 2] : Fin 4 → ℕ)
        (dominant ![1000, 5, 3, 2])) ∧
      (likely_homozygous ![1000, 5, 3, 2] (1/100) =
          some (dominant ![1000, 5, 3, 2], dominant ![1000, 5, 3, 2]) ↔
        |(minorCount ![1000, 5, 3, 2] : ℝ) -
            (coverage ![1000, 5, 3, 2] : ℝ) * ((1/100 : ℚ) : ℝ)| ≤
          Real.sqrt ((coverage ![1000, 5, 3, 2] : ℝ) * ((1/100 : ℚ) : ℝ) *
            (1 - ((1/100 : ℚ) : ℝ)))) := by
  have h := likely_homozygous_spec.1 ![1000, 5, 3, 2] (1/100) (by norm_num) (by norm_num)
    (by with_unfolding_all decide)
  exact ⟨h.1, h.2.1⟩

/-- C9: `likely_homozygous` short-circuits its numerical edge cases: zero
coverage returns `NO_GENOTYPE` before any degenerate standard-deviation
computation, and `theta = 0` with zero non-dominant counts (and nonzero
coverage) returns the doubled-dominant genotype. -/
theorem likely_homozygous_edge :
    (∀ (bc : Fin 4 → ℕ) (theta : ℚ), coverage bc = 0 → likely_homozygous bc theta = none) ∧
      (∀ bc : Fin 4 → ℕ, coverage bc ≠ 0 → minorCount bc = 0 →
        likely_homozygous bc 0 = some (dominant bc, dominant bc)) := by
  constructor
  · exact fun bc theta hc => likely_homozygous_of_zero bc theta hc
  · intro bc hc hm
    rw [likely_homozygous_eq_some_iff bc 0 hc, hm]
    norm_num

/-- C9 witness: both edge cases at concrete inputs: `{0,0,0,0}` at
`theta = 0.01`, and `{7,0,0,0}` at `theta = 0`. -/
theorem likely_homozygous_edge_witness :
    likely_homozygous ![0, 0, 0, 0] (1/100) = none ∧
      likely_homozygous ![7, 0, 0, 0] 0 =
        some (dominant ![7, 0, 0, 0], dominant ![7, 0, 0, 0]) :=
  ⟨likely_homozygous_edge.1 ![0, 0, 0, 0] (1/100) (by with_unfolding_all decide),
    likely_homozygous_edge.2 ![7, 0, 0, 0] (by with_unfolding_all decide)
      (by with_unfolding_all decide)⟩

/-- C10: `is_significant` takes its base-count array by non-const reference but
leaves it unchanged: in the state-passing model the array component returned by
`is_significant_ref` is the input array, and the verdict is `is_significant`. -/
theorem is_significant_preserves_input :
    ∀ (bc : Fin 4 → ℕ) (theta : ℚ),
      (is_significant_ref bc theta).2 = bc ∧
        (is_significant_ref bc theta).1 = is_significant bc theta :=
  fun _ _ => ⟨rfl, rfl⟩

/-- C5: when the pooled data were already judged homozygous,
`most_likely_genotype` never evaluates the heterozygous hypothesis: with
nonzero coverage it returns the homozygous genotype on the most frequent
pooled base, never a heterozygous pair. -/
theorem most_likely_genotype_homozygous_shortcut
    (nBases n_bases_total : Fin 4 → ℕ) (idx : Fin 4 → Fin 4)
    (hetero_prior theta : ℚ) (hc : coverage nBases ≠ 0) :
    (most_likely_genotype nBases n_bases_total idx true hetero_prior theta).1 =
        some (idx 3, idx 3) ∧
      ∀ a b : Fin 4, a ≠ b →
        (most_likely_genotype nBases n_bases_total idx true hetero_prior theta).1 ≠
          some (a, b) := by
  have hred : (most_likely_genotype nBases n_bases_total idx true hetero_prior theta).1 =
      some (idx 3, idx 3) := by
    unfold most_likely_genotype
    rw [if_neg hc]
    rfl
  refine ⟨hred, fun a b hab hcon => ?_⟩
  rw [hred, Option.some_inj, Prod.mk.injEq] at hcon
  exact hab (hcon.1.symm.trans hcon.2)

/-- C5 witness: the short-circuit applied at a concrete nonzero-coverage
input. -/
theorem most_likely_genotype_homozygous_shortcut_witness :
    (most_likely_genotype ![1, 0, 0, 0] ![1, 0, 0, 0] id true (1/2) (1/100)).1 =
      some (id 3, id 3) :=
  (most_likely_genotype_homozygous_shortcut ![1, 0, 0, 0] ![1, 0, 0, 0] id (1/2) (1/100)
    (by with_unfolding_all decide)).1

/-- C6: `most_likely_genotype` returns `NO_GENOTYPE` exactly at zero local
coverage, and the reported coverage (the modelled out-parameter) is always the
total of the local base counts; in particular `{0,0,0,0}` yields
`(NO_GENOTYPE, 0)`. -/
theorem most_likely_genotype_no_genotype_iff :
    (∀ (nBases n_bases_total : Fin 4 → ℕ) (idx : Fin 4 → Fin 4)
        (flag : Bool) (hetero_prior theta : ℚ),
      ((most_likely_genotype nBases n_bases_total idx flag hetero_prior theta).1 = none ↔
          coverage nBases = 0) ∧
        (most_likely_genotype nBases n_bases_total idx flag hetero_prior theta).2 =
          coverage nBases) ∧
      most_likely_genotype ![0, 0, 0, 0] ![0, 0, 0, 0] id false (1/2) (1/100) = (none, 0) := by
  constructor
  · intro nBases n_bases_total idx flag hetero_prior theta
    unfold most_likely_genotype
    by_cases hc : coverage nBases = 0
    · rw [if_pos hc]
      simp [hc]
    · rw [if_neg hc]
      rcases flag with _ | _
      · simp only [Bool.false_eq_true, if_false]
        split_ifs <;> simp [hc]
      · simp [hc]
  · with_unfolding_all decide

lemma chunksAux_flatten {α : Type} (s : ℕ) (hs : 1 ≤ s) :
    ∀ (f : ℕ) (l : List α), l.length ≤ f → (chunksAux s f l).flatten = l := by
  intro f
  induction f with
  | zero =>
    intro l hl
    have hnil : l = [] := List.length_eq_zero.mp (by omega)
    subst hnil
    rfl
  | succ f ih =>
    intro l hl
    cases l with
    | nil => rfl
    | cons x xs =>
      rw [chunksAux, List.flatten_cons]
      rw [ih ((x :: xs).drop s) (by
        rw [List.length_drop]
        simp only [List.length_cons] at hl ⊢
        omega)]
      exact List.take_append_drop s (x :: xs)

lemma chunksAux_flatten_sublist {α : Type} (s : ℕ) :
    ∀ (f : ℕ) (l : List α), List.Sublist ((chunksAux s f l).flatten) l := by
  intro f
  induction f with
  | zero =>
    intro l
    exact List.nil_sublist l
  | succ f ih =>
    intro l
    cases l with
    | nil => exact List.nil_sublist _
    | cons x xs =>
      rw [chunksAux, List.flatten_cons]
      have h1 := List.Sublist.append_left (ih ((x :: xs).drop s)) ((x :: xs).take s)
      rw [List.take_append_drop] at h1
      exact h1

lemma chunksOf_flatten {α : Type} (t : ℕ) (ht : 1 ≤ t) (l : List α) :
    (chunksOf t l).flatten = l := by
  cases l with
  | nil => rfl
  | cons x xs =>
    refine chunksAux_flatten _ ?_ _ _ (le_refl _)
    unfold chunkSize
    rw [Nat.le_div_iff_mul_le (by omega)]
    simp only [List.length_cons]
    omega

lemma chunksOf_flatten_sublist {α : Type} (t : ℕ) (l : List α) :
    List.Sublist ((chunksOf t l).flatten) l :=
  chunksAux_flatten_sublist _ _ l

lemma flatten_map_filter {α : Type} (p : α → Bool) (cs : List (List α)) :
    ((cs.map fun ch => ch.filter p).flatten) = (cs.flatten).filter p := by
  induction cs with
  | nil => rfl
  | cons c cs ih =>
    rw [List.map_cons, List.flatten_cons, List.flatten_cons, List.filter_append, ih]

lemma sum_map_filter_sum {α : Type} (p : α → Bool) (f : α → ℕ) (cs : List (List α)) :
    ((cs.map fun ch => ((ch.filter p).map f).sum).sum) =
      (((cs.flatten).filter p).map f).sum := by
  induction cs with
  | nil => rfl
  | cons c cs ih =>
    rw [List.map_cons, List.flatten_cons, List.sum_cons, List.filter_append,
      List.map_append, List.sum_append, ih]

lemma filterChr_eq_seq (id_to_group : List ℕ) (id_to_pos : List (Option ℕ)) (rate : ℚ)
    (t : ℕ) (ht : 1 ≤ t) (rows : List PosData) :
    filterChr id_to_group id_to_pos rate t rows =
      (rows.filter (rowKeep id_to_group id_to_pos rate),
        ((rows.filter (rowKeep id_to_group id_to_pos rate)).map
          (rowCoverage id_to_group id_to_pos)).sum) := by
  unfold filterChr filterWorker
  rw [List.map_map, List.map_map]
  refine Prod.ext ?_ ?_
  · show ((chunksOf t rows).map fun ch =>
        ch.filter (rowKeep id_to_group id_to_pos rate)).flatten = _
    rw [flatten_map_filter, chunksOf_flatten t ht]
  · show ((chunksOf t rows).map fun ch =>
        ((ch.filter (rowKeep id_to_group id_to_pos rate)).map
          (rowCoverage id_to_group id_to_pos)).sum).sum = _
    rw [sum_map_filter_sum, chunksOf_flatten t ht]

lemma forall₂_sublist_map {α : Type} (f : List α → List α)
    (h : ∀ l, List.Sublist (f l) l) :
    ∀ L : List (List α), List.Forall₂ List.Sublist (L.map f) L := by
  intro L
  induction L with
  | nil => exact List.Forall₂.nil
  | cons x xs ih => exact List.Forall₂.cons (h x) ih

/-- C2: `filter` returns exactly the same filtered pileup and the same average
coverage with any `num_threads ≥ 1` as with a single worker: the result is
independent of how the work was partitioned. -/
theorem filter_num_threads_invariant (pos_data : List (List PosData))
    (id_to_group : List ℕ) (id_to_pos : List (Option ℕ)) (marker : String)
    (seq_error_rate : ℚ) (num_threads : ℕ) (ht : 1 ≤ num_threads) :
    filter pos_data id_to_group id_to_pos marker seq_error_rate num_threads =
      filter pos_data id_to_group id_to_pos marker seq_error_rate 1 := by
  have hfun : filterChr id_to_group id_to_pos seq_error_rate num_threads =
      filterChr id_to_group id_to_pos seq_error_rate 1 := by
    funext rows
    rw [filterChr_eq_seq id_to_group id_to_pos seq_error_rate num_threads ht rows,
      filterChr_eq_seq id_to_group id_to_pos seq_error_rate 1 (le_refl 1) rows]
  unfold filter
  rw [hfun]

/-- C2 witness: eight workers and one worker agree on a concrete one-row
pileup. -/
theorem filter_num_threads_invariant_witness :
    filter [[⟨0, [(0, ![6, 4, 0, 0])]⟩]] [0] [some 0] "A" (1/10) 8 =
      filter [[⟨0, [(0, ![6, 4, 0, 0])]⟩]] [0] [some 0] "A" (1/10) 1 :=
  filter_num_threads_invariant [[⟨0, [(0, ![6, 4, 0, 0])]⟩]] [0] [some 0] "A" (1/10) 8
    (by norm_num)

/-- C8: the filtered pileup preserves the input order: for every chromosome the
kept rows form a sublist (ordered selection, no reordering, no duplication) of
that chromosome's input rows, for every `num_threads`. -/
theorem filter_preserves_order (pos_data : List (List PosData))
    (id_to_group : List ℕ) (id_to_pos : List (Option ℕ)) (marker : String)
    (seq_error_rate : ℚ) (num_threads : ℕ) :
    List.Forall₂ List.Sublist
      (filter pos_data id_to_group id_to_pos marker seq_error_rate num_threads).1
      pos_data := by
  have hone : ∀ rows : List PosData,
      List.Sublist
        ((fun rows => (filterChr id_to_group id_to_pos seq_error_rate num_threads rows).1)
          rows) rows := by
    intro rows
    show List.Sublist (filterChr id_to_group id_to_pos seq_error_rate num_threads rows).1 rows
    unfold filterChr
    dsimp only
    rw [List.map_map]
    have hfn : (Prod.fst ∘ filterWorker id_to_group id_to_pos seq_error_rate) =
        fun ch => ch.filter (rowKeep id_to_group id_to_pos seq_error_rate) := rfl
    rw [hfn, flatten_map_filter]
    exact List.Sublist.trans (List.filter_sublist _) (chunksOf_flatten_sublist _ _)
  show List.Forall₂ List.Sublist
    ((pos_data.map (filterChr id_to_group id_to_pos seq_error_rate num_threads)).map
      Prod.fst) pos_data
  rw [List.map_map]
  exact forall₂_sublist_map _ hone pos_data

lemma log_fact_table (n : ℕ) (h : n < 4) : log_fact n = Real.log n.factorial := by
  unfold log_fact
  rw [if_pos h]

lemma log_fact_stirling (n : ℕ) (h : 4 ≤ n) : log_fact n = stirling n := by
  unfold log_fact
  rw [if_neg (by omega)]

lemma stirling_boundary : Real.log (Nat.factorial 3) ≤ stirling 4 := by
  have l2lb := Real.log_two_gt_d9
  have l2ub := Real.log_two_lt_d9
  have hpi := Real.pi_gt_three
  have hlog4 : Real.log 4 = 2 * Real.log 2 := by
    rw [show (4 : ℝ) = 2 ^ 2 by norm_num, Real.log_pow]
    push_cast
    ring
  have hlog6 : Real.log 6 ≤ 3 * Real.log 2 := by
    have h68 : Real.log 6 ≤ Real.log 8 := Real.log_le_log (by norm_num) (by norm_num)
    rw [show (8 : ℝ) = 2 ^ 3 by norm_num, Real.log_pow] at h68
    push_cast at h68
    linarith
  have hlog8pi : 4 * Real.log 2 ≤ Real.log (2 * Real.pi * 4) := by
    have h16 : (16 : ℝ) ≤ 2 * Real.pi * 4 := by nlinarith
    have hmono : Real.log 16 ≤ Real.log (2 * Real.pi * 4) :=
      Real.log_le_log (by norm_num) h16
    rw [show (16 : ℝ) = 2 ^ 4 by norm_num, Real.log_pow] at hmono
    push_cast at hmono
    linarith
  have hfac : (Nat.factorial 3 : ℝ) = 6 := by norm_num [Nat.factorial]
  unfold stirling
  rw [hfac]
  push_cast
  rw [hlog4]
  norm_num
  linarith

lemma stirling_mono (n : ℕ) (h : 4 ≤ n) : stirling n ≤ stirling (n + 1) := by
  have l2lb := Real.log_two_gt_d9
  have hN4 : (4 : ℝ) ≤ (n : ℝ) := by exact_mod_cast h
  have hN0 : (0 : ℝ) < (n : ℝ) := by linarith
  have hN10 : (0 : ℝ) < (n : ℝ) + 1 := by linarith
  have h2pi : (0 : ℝ) < 2 * Real.pi := by
    have := Real.pi_gt_three
    linarith
  have hLL : Real.log (n : ℝ) ≤ Real.log ((n : ℝ) + 1) :=
    Real.log_le_log hN0 (by linarith)
  have hLlb : 2 * Real.log 2 ≤ Real.log ((n : ℝ) + 1) := by
    have h45 : Real.log 4 ≤ Real.log ((n : ℝ) + 1) :=
      Real.log_le_log (by norm_num) (by linarith)
    rw [show (4 : ℝ) = 2 ^ 2 by norm_num, Real.log_pow] at h45
    push_cast at h45
    linarith
  have hsplitn : Real.log (2 * Real.pi * (n : ℝ)) =
      Real.log (2 * Real.pi) + Real.log (n : ℝ) :=
    Real.log_mul (by positivity) (by positivity)
  have hsplitn1 : Real.log (2 * Real.pi * ((n : ℝ) + 1)) =
      Real.log (2 * Real.pi) + Real.log ((n : ℝ) + 1) :=
    Real.log_mul (by positivity) (by positivity)
  have hterm1 : Real.log ((n : ℝ) + 1) ≤
      ((n : ℝ) + 1) * Real.log ((n : ℝ) + 1) - (n : ℝ) * Real.log (n : ℝ) := by
    nlinarith [hLL, hN0]
  have h12 : -(1 / 240 : ℝ) ≤ 1 / (12 * ((n : ℝ) + 1)) - 1 / (12 * (n : ℝ)) := by
    have e : 1 / (12 * ((n : ℝ) + 1)) - 1 / (12 * (n : ℝ)) =
        -(1 / (12 * (n : ℝ) * ((n : ℝ) + 1))) := by
      field_simp
      ring
    have b : 1 / (12 * (n : ℝ) * ((n : ℝ) + 1)) ≤ 1 / 240 := by
      rw [div_le_div_iff (by positivity) (by norm_num)]
      nlinarith
    linarith [e, b]
  have h360 : 1 / (360 * ((n : ℝ) + 1) ^ 3) ≤ 1 / (360 * (n : ℝ) ^ 3) := by
    rw [div_le_div_iff (by positivity) (by positivity)]
    nlinarith [hN0]
  unfold stirling
  push_cast
  rw [hsplitn, hsplitn1]
  linarith [hterm1, hLL, hLlb, h12, h360]

/-- C7: `log_fact 0 = 0` and `log_fact 1 = 0` exactly, and `log_fact` is
monotonically non-decreasing over all of `ℕ`, including across the boundary
between the precomputed-table regime and the Stirling-approximation regime. -/
theorem log_fact_spec :
    log_fact 0 = 0 ∧ log_fact 1 = 0 ∧ ∀ n : ℕ, log_fact n ≤ log_fact (n + 1) := by
  refine ⟨?_, ?_, ?_⟩
  · rw [log_fact_table 0 (by norm_num)]
    norm_num [Nat.factorial]
  · rw [log_fact_table 1 (by norm_num)]
    norm_num [Nat.factorial]
  · intro n
    rcases lt_or_le (n + 1) 4 with h4 | h4
    · rw [log_fact_table n (by omega), log_fact_table (n + 1) (by omega)]
      refine Real.log_le_log ?_ ?_
      · exact_mod_cast Nat.factorial_pos n
      · exact_mod_cast Nat.factorial_le (Nat.le_succ n)
    · rcases Nat.eq_or_lt_of_le h4 with h3 | h5
      · have hn3 : n = 3 := by omega
        subst hn3
        rw [log_fact_table 3 (by norm_num), log_fact_stirling 4 (by norm_num)]
        exact stirling_boundary
      · have hn4 : 4 ≤ n := by omega
        rw [log_fact_stirling n hn4, log_fact_stirling (n + 1) (by omega)]
        exact stirling_mono n hn4

end Scatter
